import Mathlib

/-!
Verification of the natural-language specification of the `rust-opa-wasm`
runtime against a shallow embedding of its builtin implementations.

Each section embeds one Rust source function (from `src/builtins/impls/` and
friends) as a Lean definition, translated directly from the source, and proves
or refutes the corresponding specification claim.

JSON values (`serde_json::Value`) are modelled by the inductive type `Json`;
JSON numbers are carried as integers, since none of the verified operations
inspects the numeric payload. Objects (`serde_json::Map`, a key-ordered map)
are modelled as association lists; `setKey` models `Map::insert` (update in
place when the key is present, append otherwise) and `getVal` models key
lookup.
-/

namespace OpaWasm

/-- JSON values, modelling `serde_json::Value`. -/
inductive Json where
  | null : Json
  | bool (b : Bool) : Json
  | num (n : Int) : Json
  | str (s : String) : Json
  | arr (items : List Json) : Json
  | obj (entries : List (String × Json)) : Json

/-- Lookup of a key in an object's entry list (first match), modelling
`serde_json::Map` key lookup. -/
def getVal : List (String × Json) → String → Option Json
  | [], _ => none
  | (k', v') :: rest, k => if k' = k then some v' else getVal rest k

/-- Update of the entry for a key if present (first occurrence), appending a
new entry otherwise; models insertion into a `serde_json::Map` (one entry per
key). -/
def setKey : List (String × Json) → String → Json → List (String × Json)
  | [], k, v => [(k, v)]
  | (k', v') :: rest, k, v =>
      if k' = k then (k', v) :: rest else (k', v') :: setKey rest k v

/-! ## `object.union_n` (src/builtins/impls/object.rs)

The Rust `merge_value(a, b)` mutates `a` in place; the embedding returns the
new value.  The match arms are in source order: object/object, array/array,
array/object, anything/null, catch-all.  The object/object arm iterates over
`b`'s entries and merges each into `a.entry(k).or_insert(Value::Null)`, which
is `setKey a k (mergeValue (or-null lookup) v)`. -/

mutual

/-- Embedding of `merge_value` from src/builtins/impls/object.rs. -/
def mergeValue : Json → Json → Json
  | Json.obj a, Json.obj b => Json.obj (mergeObjList a b)
  | Json.arr _, Json.arr b => Json.arr b
  | Json.arr _, Json.obj b => Json.arr [Json.obj b]
  | a, Json.null => a
  | _, b => b
termination_by _ b => sizeOf b

/-- Embedding of the object/object arm of `merge_value`: fold `b`'s entries
into `a`, merging onto the existing entry or a fresh `Null` slot. -/
def mergeObjList (a : List (String × Json)) : List (String × Json) → List (String × Json)
  | [] => a
  | (k, v) :: rest =>
      mergeObjList (setKey a k (mergeValue ((getVal a k).getD Json.null) v)) rest
termination_by b => sizeOf b

end

/-- Embedding of `object.union_n` from src/builtins/impls/object.rs: fold
`merge_value` over the arguments starting from the empty object. -/
def union_n (objects : List Json) : Except String Json :=
  Except.ok (objects.foldl mergeValue (Json.obj []))

/-! ### Basic lemmas about object entry lists -/

theorem getVal_mem {l : List (String × Json)} {k : String} {v : Json}
    (h : getVal l k = some v) : (k, v) ∈ l := by
  induction l with
  | nil => simp [getVal] at h
  | cons p rest ih =>
      obtain ⟨k', v'⟩ := p
      by_cases hk : k' = k
      · subst hk
        simp [getVal] at h
        simp [h]
      · simp [getVal, hk] at h
        exact List.mem_cons_of_mem _ (ih h)

theorem getVal_none_iff {l : List (String × Json)} {k : String} :
    getVal l k = none ↔ k ∉ l.map Prod.fst := by
  induction l with
  | nil => simp [getVal]
  | cons p rest ih =>
      obtain ⟨k', v'⟩ := p
      by_cases hk : k' = k
      · subst hk; simp [getVal]
      · simp [getVal, hk, ih, Ne.symm hk]

theorem getVal_isSome_iff {l : List (String × Json)} {k : String} :
    (getVal l k).isSome = true ↔ k ∈ l.map Prod.fst := by
  rcases h : getVal l k with _ | v
  · simp [getVal_none_iff.mp h]
  · simp
    exact ⟨v, getVal_mem h⟩

theorem getVal_eq_of_nodup_mem {l : List (String × Json)} {k : String} {v : Json}
    (hnd : (l.map Prod.fst).Nodup) (hm : (k, v) ∈ l) : getVal l k = some v := by
  induction l with
  | nil => simp at hm
  | cons p rest ih =>
      obtain ⟨k', v'⟩ := p
      rw [List.map_cons, List.nodup_cons] at hnd
      rcases List.mem_cons.mp hm with heq | hm
      · cases heq
        simp [getVal]
      · have hk : k' ≠ k := by
          intro he
          subst he
          exact hnd.1 (List.mem_map.mpr ⟨(k', v), hm, rfl⟩)
        simp [getVal, hk]
        exact ih hnd.2 hm

theorem getVal_setKey_self (l : List (String × Json)) (k : String) (v : Json) :
    getVal (setKey l k v) k = some v := by
  induction l with
  | nil => simp [setKey, getVal]
  | cons p rest ih =>
      obtain ⟨k', v'⟩ := p
      by_cases hk : k' = k
      · simp [setKey, hk, getVal]
      · simp [setKey, hk, getVal, ih]

theorem getVal_setKey_ne {l : List (String × Json)} {k k' : String} (v : Json)
    (h : k' ≠ k) : getVal (setKey l k v) k' = getVal l k' := by
  induction l with
  | nil => simp [setKey, getVal, Ne.symm h]
  | cons p rest ih =>
      obtain ⟨k₁, v₁⟩ := p
      by_cases hk : k₁ = k
      · subst hk
        simp [setKey, getVal, Ne.symm h]
      · simp [setKey, hk, getVal, ih]

theorem keys_setKey_mem {l : List (String × Json)} {k : String} (v : Json)
    (h : k ∈ l.map Prod.fst) :
    (setKey l k v).map Prod.fst = l.map Prod.fst := by
  induction l with
  | nil => simp at h
  | cons p rest ih =>
      obtain ⟨k', v'⟩ := p
      by_cases hk : k' = k
      · simp [setKey, hk]
      · rw [List.map_cons] at h
        rcases List.mem_cons.mp h with h | h
        · exact absurd h.symm hk
        · simp [setKey, hk, ih h]

theorem setKey_not_mem {l : List (String × Json)} {k : String} (v : Json)
    (h : k ∉ l.map Prod.fst) : setKey l k v = l ++ [(k, v)] := by
  induction l with
  | nil => simp [setKey]
  | cons p rest ih =>
      obtain ⟨k', v'⟩ := p
      rw [List.map_cons] at h
      have h1 : k' ≠ k := fun he => h (he ▸ List.mem_cons_self _ _)
      have h2 : k ∉ rest.map Prod.fst := fun he => h (List.mem_cons_of_mem _ he)
      simp [setKey, h1, ih h2]

theorem mem_setKey {l : List (String × Json)} {k : String} {v : Json}
    {p : String × Json} (h : p ∈ setKey l k v) : p ∈ l ∨ p = (k, v) := by
  induction l with
  | nil => simp [setKey] at h; simp [h]
  | cons q rest ih =>
      obtain ⟨k', v'⟩ := q
      by_cases hk : k' = k
      · simp [setKey, hk] at h
        rcases h with h | h
        · right; simp [h, hk]
        · left; exact List.mem_cons_of_mem _ h
      · simp [setKey, hk] at h
        rcases h with h | h
        · left; simp [h]
        · rcases ih h with h' | h'
          · exact Or.inl (List.mem_cons_of_mem _ h')
          · exact Or.inr h'

theorem getVal_append_left {l₁ : List (String × Json)} (l₂ : List (String × Json))
    {k : String} {v : Json} (h : getVal l₁ k = some v) :
    getVal (l₁ ++ l₂) k = some v := by
  induction l₁ with
  | nil => simp [getVal] at h
  | cons p rest ih =>
      obtain ⟨k', v'⟩ := p
      by_cases hk : k' = k
      · simp [getVal, hk] at h ⊢
        exact h
      · simp [getVal, hk] at h ⊢
        exact ih h

theorem getVal_append_right {l₁ : List (String × Json)} (l₂ : List (String × Json))
    {k : String} (h : getVal l₁ k = none) :
    getVal (l₁ ++ l₂) k = getVal l₂ k := by
  induction l₁ with
  | nil => simp
  | cons p rest ih =>
      obtain ⟨k', v'⟩ := p
      by_cases hk : k' = k
      · simp [getVal, hk] at h
      · simp [getVal, hk] at h ⊢
        exact ih h

/-- With one entry per key, updating a present key is a pointwise map. -/
theorem setKey_eq_map_of_nodup {a : List (String × Json)} {kb : String} (w : Json)
    (hnd : (a.map Prod.fst).Nodup) (hmem : kb ∈ a.map Prod.fst) :
    setKey a kb w = a.map fun p => if p.1 = kb then (kb, w) else p := by
  induction a with
  | nil => simp at hmem
  | cons p rest ih =>
      obtain ⟨k', v'⟩ := p
      rw [List.map_cons, List.nodup_cons] at hnd
      by_cases hk : k' = kb
      · subst hk
        have : ∀ q ∈ rest, (if q.1 = k' then ((k' : String), w) else q) = q := by
          intro q hq
          have : q.1 ≠ k' := fun he => hnd.1 (he ▸ List.mem_map.mpr ⟨q, hq, rfl⟩)
          simp [this]
        simp [setKey, List.map_congr_left this]
      · rw [List.map_cons] at hmem
        rcases List.mem_cons.mp hmem with h | h
        · exact absurd h.symm hk
        · simp [setKey, hk, ih hnd.2 h]

/-- Merging anything onto a `Null` slot yields the merged-in value: none of
the first three arms of `merge_value` can match when the left side is null,
and the null/catch-all arms both give back `b`. -/
theorem mergeValue_null_left (v : Json) : mergeValue Json.null v = v := by
  cases v <;> simp [mergeValue]

/-! Shape lemmas replaying the five match arms of `merge_value`, organised by
the right-hand constructor. -/

theorem mergeValue_null_right (va : Json) : mergeValue va Json.null = va := by
  cases va <;> simp [mergeValue]

theorem mergeValue_bool_right (va : Json) (b : Bool) :
    mergeValue va (Json.bool b) = Json.bool b := by
  cases va <;> simp [mergeValue]

theorem mergeValue_num_right (va : Json) (n : Int) :
    mergeValue va (Json.num n) = Json.num n := by
  cases va <;> simp [mergeValue]

theorem mergeValue_str_right (va : Json) (s : String) :
    mergeValue va (Json.str s) = Json.str s := by
  cases va <;> simp [mergeValue]

theorem mergeValue_arr_right (va : Json) (bx : List Json) :
    mergeValue va (Json.arr bx) = Json.arr bx := by
  cases va <;> simp [mergeValue]

theorem mergeValue_arr_obj (ax : List Json) (b : List (String × Json)) :
    mergeValue (Json.arr ax) (Json.obj b) = Json.arr [Json.obj b] := by
  simp [mergeValue]

theorem mergeValue_obj_obj (a b : List (String × Json)) :
    mergeValue (Json.obj a) (Json.obj b) = Json.obj (mergeObjList a b) := by
  simp [mergeValue]

theorem mergeValue_prim_obj (va : Json) (b : List (String × Json))
    (harr : ∀ ax, va ≠ Json.arr ax) (hobj : ∀ a, va ≠ Json.obj a) :
    mergeValue va (Json.obj b) = Json.obj b := by
  cases va <;> simp [mergeValue]
  · exact absurd rfl (harr _)
  · exact absurd rfl (hobj _)

/-- Well-formedness of a `Json` value as produced by `serde_json`: every
object has one entry per key.  (Array elements are never merged into, so they
are unconstrained.) -/
def wfJ : Json → Prop
  | Json.null => True
  | Json.bool _ => True
  | Json.num _ => True
  | Json.str _ => True
  | Json.arr _ => True
  | Json.obj kvs => (kvs.map Prod.fst).Nodup ∧ ∀ k v, (k, v) ∈ kvs → wfJ v
termination_by j => sizeOf j
decreasing_by
  have := List.sizeOf_lt_of_mem ‹(k, v) ∈ kvs›
  simp at this ⊢
  omega

theorem wfJ_obj_iff {kvs : List (String × Json)} :
    wfJ (Json.obj kvs) ↔ (kvs.map Prod.fst).Nodup ∧ ∀ k v, (k, v) ∈ kvs → wfJ v := by
  rw [wfJ]

/-- Strong induction on the size of a `Json` value. -/
theorem json_size_induction {P : Json → Prop}
    (h : ∀ b, (∀ b', sizeOf b' < sizeOf b → P b') → P b) : ∀ b, P b := by
  have aux : ∀ n b, sizeOf b < n → P b := by
    intro n
    induction n with
    | zero => intro b hb; omega
    | succ n ih => exact fun b hb => h b fun b' hb' => ih b' (by omega)
  exact fun b => aux (sizeOf b + 1) b (by omega)

/-! ### Specification-side merge

`specMerge` is modelled from the claim's words (with the array/object
collision case amended): the union of two objects keeps keys only in `a` with
`a`'s value, adds keys only in `b` with `b`'s value, merges recursively when
both values are objects, keeps `a`'s value when `b`'s value is null, replaces
the array when both values are arrays, wraps `b`'s object in a one-element
array when `a`'s value is an array and `b`'s is an object, and otherwise lets
`b`'s value override `a`'s. -/

/-- Specification-side merge of two JSON values, by recursion on the
right-hand value.  The object/object case lists `a`'s entries in order, each
colliding value resolved recursively, followed by `b`'s entries whose keys do
not appear in `a`. -/
def specMerge : Json → Json → Json
  | Json.obj a, Json.obj b =>
      Json.obj ((a.attach.map fun p =>
          match h : getVal b p.1.1 with
          | some vb => (p.1.1, specMerge p.1.2 vb)
          | none => p.1) ++ b.filter fun q => (getVal a q.1).isNone)
  | a, Json.null => a
  | Json.arr _, Json.arr b => Json.arr b
  | Json.arr _, Json.obj b => Json.arr [Json.obj b]
  | _, b => b
termination_by _ b => sizeOf b
decreasing_by
  have := List.sizeOf_lt_of_mem (getVal_mem h)
  simp at this ⊢
  omega

/-- Resolution of a single left-hand entry against the right-hand object. -/
def updateEntry (b : List (String × Json)) (p : String × Json) : String × Json :=
  match getVal b p.1 with
  | some vb => (p.1, specMerge p.2 vb)
  | none => p

/-- Specification-side union of the entry lists of two objects. -/
def specMergeObj (a b : List (String × Json)) : List (String × Json) :=
  a.map (updateEntry b) ++ b.filter fun q => (getVal a q.1).isNone

theorem specMerge_obj_obj (a b : List (String × Json)) :
    specMerge (Json.obj a) (Json.obj b) = Json.obj (specMergeObj a b) := by
  rw [specMerge, specMergeObj]
  congr 1
  congr 1
  rw [← List.attach_map_coe a (updateEntry b)]
  apply List.map_congr_left
  intro p _
  rcases h : getVal b p.1.1 with _ | vb <;> simp [updateEntry, h]

theorem updateEntry_congr {b₁ b₂ : List (String × Json)} {p : String × Json}
    (h : getVal b₁ p.1 = getVal b₂ p.1) : updateEntry b₁ p = updateEntry b₂ p := by
  unfold updateEntry
  rw [h]

theorem specMerge_null_right (va : Json) : specMerge va Json.null = va := by
  cases va <;> simp [specMerge]

theorem specMerge_bool_right (va : Json) (b : Bool) :
    specMerge va (Json.bool b) = Json.bool b := by
  cases va <;> simp [specMerge]

theorem specMerge_num_right (va : Json) (n : Int) :
    specMerge va (Json.num n) = Json.num n := by
  cases va <;> simp [specMerge]

theorem specMerge_str_right (va : Json) (s : String) :
    specMerge va (Json.str s) = Json.str s := by
  cases va <;> simp [specMerge]

theorem specMerge_arr_right (va : Json) (bx : List Json) :
    specMerge va (Json.arr bx) = Json.arr bx := by
  cases va <;> simp [specMerge]

theorem specMerge_arr_obj (ax : List Json) (b : List (String × Json)) :
    specMerge (Json.arr ax) (Json.obj b) = Json.arr [Json.obj b] := by
  simp [specMerge]

theorem specMerge_prim_obj (va : Json) (b : List (String × Json))
    (harr : ∀ ax, va ≠ Json.arr ax) (hobj : ∀ a, va ≠ Json.obj a) :
    specMerge va (Json.obj b) = Json.obj b := by
  cases va <;> simp [specMerge]
  · exact absurd rfl (harr _)
  · exact absurd rfl (hobj _)

theorem wfJ_null : wfJ Json.null := by rw [wfJ]; trivial

theorem wfJ_obj_nodup {a : List (String × Json)} (h : wfJ (Json.obj a)) :
    (a.map Prod.fst).Nodup := (wfJ_obj_iff.mp h).1

theorem wfJ_obj_val {a : List (String × Json)} {k : String} {v : Json}
    (h : wfJ (Json.obj a)) (hm : (k, v) ∈ a) : wfJ v :=
  (wfJ_obj_iff.mp h).2 k v hm

theorem wfJ_obj_tail {p : String × Json} {rest : List (String × Json)}
    (h : wfJ (Json.obj (p :: rest))) : wfJ (Json.obj rest) := by
  rw [wfJ_obj_iff] at h ⊢
  exact ⟨(List.nodup_cons.mp (List.map_cons _ _ _ ▸ h.1)).2,
    fun k v hm => h.2 k v (List.mem_cons_of_mem _ hm)⟩

theorem wfJ_getD {a : List (String × Json)} (k : String)
    (h : wfJ (Json.obj a)) : wfJ ((getVal a k).getD Json.null) := by
  rcases hg : getVal a k with _ | v
  · exact wfJ_null
  · exact wfJ_obj_val h (getVal_mem hg)

/-- Updating one entry of a well-formed object with a well-formed value keeps
the object well-formed. -/
theorem wfJ_obj_setKey {a : List (String × Json)} {k : String} {w : Json}
    (ha : wfJ (Json.obj a)) (hw : wfJ w) : wfJ (Json.obj (setKey a k w)) := by
  rw [wfJ_obj_iff]
  constructor
  · by_cases hmem : k ∈ a.map Prod.fst
    · rw [keys_setKey_mem _ hmem]
      exact wfJ_obj_nodup ha
    · rw [setKey_not_mem _ hmem]
      simp [List.nodup_append]
      refine ⟨wfJ_obj_nodup ha, ?_⟩
      intro v hv
      exact hmem (List.mem_map.mpr ⟨(k, v), hv, rfl⟩)
  · intro k' v' hm
    rcases mem_setKey hm with hm | hm
    · exact wfJ_obj_val ha hm
    · cases hm; exact hw

/-- Well-formedness is preserved by `merge_value` (auxiliary list form,
parameterised by the induction hypothesis on the sizes of `b`'s values). -/
theorem mergeObjList_wf (b : List (String × Json))
    (IH : ∀ k vb, (k, vb) ∈ b → ∀ va, wfJ va → wfJ vb → wfJ (mergeValue va vb)) :
    ∀ a, wfJ (Json.obj a) → wfJ (Json.obj b) → wfJ (Json.obj (mergeObjList a b)) := by
  induction b with
  | nil => intro a ha _; rw [mergeObjList]; exact ha
  | cons hd rest ih =>
      obtain ⟨kb, vb⟩ := hd
      intro a ha hb
      rw [mergeObjList]
      have hvb : wfJ vb := wfJ_obj_val hb (List.mem_cons_self _ _)
      have hw : wfJ (mergeValue ((getVal a kb).getD Json.null) vb) :=
        IH kb vb (List.mem_cons_self _ _) _ (wfJ_getD kb ha) hvb
      exact ih (fun k v hm => IH k v (List.mem_cons_of_mem _ hm))
        _ (wfJ_obj_setKey ha hw) (wfJ_obj_tail hb)

/-- Well-formedness is preserved by `merge_value`. -/
theorem wfJ_mergeValue : ∀ vb va, wfJ va → wfJ vb → wfJ (mergeValue va vb) := by
  have main : ∀ vb, (∀ vb', sizeOf vb' < sizeOf vb →
      ∀ va, wfJ va → wfJ vb' → wfJ (mergeValue va vb')) →
      ∀ va, wfJ va → wfJ vb → wfJ (mergeValue va vb) := by
    intro vb hstrong va ha hb
    cases vb with
    | null => rw [mergeValue_null_right]; exact ha
    | bool b => rw [mergeValue_bool_right]; exact hb
    | num n => rw [mergeValue_num_right]; exact hb
    | str s => rw [mergeValue_str_right]; exact hb
    | arr bx => rw [mergeValue_arr_right]; exact hb
    | obj b =>
        cases va with
        | arr ax => rw [mergeValue_arr_obj]; rw [wfJ]; trivial
        | obj a =>
            rw [mergeValue_obj_obj]
            refine mergeObjList_wf b ?_ a ha hb
            intro k v hm
            have hsz := List.sizeOf_lt_of_mem hm
            refine hstrong v ?_
            simp at hsz ⊢
            omega
        | null => rw [mergeValue_prim_obj _ _ (by simp) (by simp)]; exact hb
        | bool c => rw [mergeValue_prim_obj _ _ (by simp) (by simp)]; exact hb
        | num n => rw [mergeValue_prim_obj _ _ (by simp) (by simp)]; exact hb
        | str s => rw [mergeValue_prim_obj _ _ (by simp) (by simp)]; exact hb
  exact json_size_induction
    (P := fun vb => ∀ va, wfJ va → wfJ vb → wfJ (mergeValue va vb))
    (fun b hstrong => main b hstrong)

/-- Key step for the `object.union_n` claim: on well-formed objects the
source-side fold `mergeObjList` computes the specification-side union
`specMergeObj` (parameterised by the induction hypothesis on `b`'s values). -/
theorem mergeObjList_eq_spec :
    ∀ b : List (String × Json),
      (∀ k vb, (k, vb) ∈ b → ∀ va, wfJ va → wfJ vb → mergeValue va vb = specMerge va vb) →
      ∀ a, wfJ (Json.obj a) → wfJ (Json.obj b) → mergeObjList a b = specMergeObj a b := by
  intro b
  induction b with
  | nil =>
      intro _ a _ _
      rw [mergeObjList]
      unfold specMergeObj
      have hid : a.map (updateEntry []) = a.map id :=
        List.map_congr_left fun p _ => by simp [updateEntry, getVal]
      simp [hid]
  | cons hd rest ih =>
      obtain ⟨kb, vb⟩ := hd
      intro HIH a ha hb
      have hvbwf : wfJ vb := wfJ_obj_val hb (List.mem_cons_self _ _)
      have hkbrest : kb ∉ rest.map Prod.fst := by
        have hnd := wfJ_obj_nodup hb
        rw [List.map_cons, List.nodup_cons] at hnd
        exact hnd.1
      have hrestwf : wfJ (Json.obj rest) := wfJ_obj_tail hb
      have HIH' : ∀ k v, (k, v) ∈ rest →
          ∀ va, wfJ va → wfJ v → mergeValue va v = specMerge va v :=
        fun k v hm => HIH k v (List.mem_cons_of_mem _ hm)
      have hrestnone : getVal rest kb = none := getVal_none_iff.mpr hkbrest
      by_cases hmem : kb ∈ a.map Prod.fst
      · obtain ⟨va₀, hget⟩ := Option.isSome_iff_exists.mp (getVal_isSome_iff.mpr hmem)
        have hva₀wf : wfJ va₀ := wfJ_obj_val ha (getVal_mem hget)
        rw [mergeObjList]
        simp only [hget, Option.getD_some]
        have hwfset : wfJ (Json.obj (setKey a kb (mergeValue va₀ vb))) :=
          wfJ_obj_setKey ha (wfJ_mergeValue vb va₀ hva₀wf hvbwf)
        rw [ih HIH' _ hwfset hrestwf]
        unfold specMergeObj
        have hfilter : (rest.filter fun q => (getVal (setKey a kb (mergeValue va₀ vb)) q.1).isNone)
            = rest.filter fun q => (getVal a q.1).isNone := by
          apply List.filter_congr
          intro q hq
          have hne : q.1 ≠ kb := fun he => hkbrest (he ▸ List.mem_map.mpr ⟨q, hq, rfl⟩)
          rw [getVal_setKey_ne _ hne]
        have hfilter2 : (((kb, vb) :: rest).filter fun q => (getVal a q.1).isNone)
            = rest.filter fun q => (getVal a q.1).isNone := by
          rw [List.filter_cons]
          simp [hget]
        have hmap : (setKey a kb (mergeValue va₀ vb)).map (updateEntry rest)
            = a.map (updateEntry ((kb, vb) :: rest)) := by
          rw [setKey_eq_map_of_nodup _ (wfJ_obj_nodup ha) hmem, List.map_map]
          apply List.map_congr_left
          intro p hp
          by_cases hpk : p.1 = kb
          · have hp2 : p.2 = va₀ := by
              have hv := getVal_eq_of_nodup_mem (wfJ_obj_nodup ha)
                (show (p.1, p.2) ∈ a by simpa using hp)
              rw [hpk, hget] at hv
              exact (Option.some.inj hv).symm
            have hL : (updateEntry rest ∘ fun p : String × Json =>
                if p.1 = kb then (kb, mergeValue va₀ vb) else p) p
                = (kb, mergeValue va₀ vb) := by
              simp [Function.comp, hpk, updateEntry, hrestnone]
            have hR : updateEntry ((kb, vb) :: rest) p = (kb, specMerge va₀ vb) := by
              unfold updateEntry
              have : getVal ((kb, vb) :: rest) p.1 = some vb := by
                simp [getVal, hpk]
              rw [this, hpk, hp2]
            rw [hL, hR, HIH kb vb (List.mem_cons_self _ _) va₀ hva₀wf hvbwf]
          · have hL : (updateEntry rest ∘ fun p : String × Json =>
                if p.1 = kb then (kb, mergeValue va₀ vb) else p) p = updateEntry rest p := by
              simp [Function.comp, hpk]
            rw [hL]
            apply updateEntry_congr
            simp [getVal, Ne.symm hpk]
        rw [hmap, hfilter, hfilter2]
      · have hget : getVal a kb = none := getVal_none_iff.mpr hmem
        rw [mergeObjList]
        simp only [hget, Option.getD_none, mergeValue_null_left]
        rw [setKey_not_mem _ hmem]
        have hwfapp : wfJ (Json.obj (a ++ [(kb, vb)])) := by
          rw [wfJ_obj_iff]
          constructor
          · simp [List.nodup_append]
            refine ⟨wfJ_obj_nodup ha, ?_⟩
            intro v hv
            exact hmem (List.mem_map.mpr ⟨(kb, v), hv, rfl⟩)
          · intro k v hm
            rcases List.mem_append.mp hm with hm | hm
            · exact wfJ_obj_val ha hm
            · simp at hm
              rw [hm.2]
              exact hvbwf
        rw [ih HIH' _ hwfapp hrestwf]
        unfold specMergeObj
        rw [List.map_append]
        have hsingle : ([((kb : String), vb)]).map (updateEntry rest) = [(kb, vb)] := by
          simp [updateEntry, hrestnone]
        have hfilter : (rest.filter fun q => (getVal (a ++ [(kb, vb)]) q.1).isNone)
            = rest.filter fun q => (getVal a q.1).isNone := by
          apply List.filter_congr
          intro q hq
          have hne : q.1 ≠ kb := fun he => hkbrest (he ▸ List.mem_map.mpr ⟨q, hq, rfl⟩)
          rcases hg : getVal a q.1 with _ | v
          · rw [getVal_append_right _ hg]
            simp [getVal, Ne.symm hne]
          · rw [getVal_append_left _ hg]
        have hmap : a.map (updateEntry rest) = a.map (updateEntry ((kb, vb) :: rest)) := by
          apply List.map_congr_left
          intro p hp
          have hne : p.1 ≠ kb := fun he =>
            hmem (he ▸ List.mem_map.mpr ⟨p, hp, rfl⟩)
          apply updateEntry_congr
          simp [getVal, Ne.symm hne]
        have hfilter2 : (((kb, vb) :: rest).filter fun q => (getVal a q.1).isNone)
            = (kb, vb) :: rest.filter fun q => (getVal a q.1).isNone := by
          rw [List.filter_cons]
          simp [hget]
        rw [hsingle, hfilter, hmap, hfilter2, List.append_assoc]
        simp

/-- On well-formed values, the source `merge_value` computes exactly the
specification-side merge. -/
theorem mergeValue_eq_specMerge : ∀ vb va, wfJ va → wfJ vb →
    mergeValue va vb = specMerge va vb := by
  have main : ∀ vb, (∀ vb', sizeOf vb' < sizeOf vb →
      ∀ va, wfJ va → wfJ vb' → mergeValue va vb' = specMerge va vb') →
      ∀ va, wfJ va → wfJ vb → mergeValue va vb = specMerge va vb := by
    intro vb hstrong va ha hb
    cases vb with
    | null => rw [mergeValue_null_right, specMerge_null_right]
    | bool b => rw [mergeValue_bool_right, specMerge_bool_right]
    | num n => rw [mergeValue_num_right, specMerge_num_right]
    | str s => rw [mergeValue_str_right, specMerge_str_right]
    | arr bx => rw [mergeValue_arr_right, specMerge_arr_right]
    | obj b =>
        cases va with
        | arr ax => rw [mergeValue_arr_obj, specMerge_arr_obj]
        | obj a =>
            rw [mergeValue_obj_obj, specMerge_obj_obj]
            congr 1
            refine mergeObjList_eq_spec b ?_ a ha hb
            intro k v hm
            have hsz := List.sizeOf_lt_of_mem hm
            refine hstrong v ?_
            simp at hsz ⊢
            omega
        | null => rw [mergeValue_prim_obj _ _ (by simp) (by simp),
            specMerge_prim_obj _ _ (by simp) (by simp)]
        | bool c => rw [mergeValue_prim_obj _ _ (by simp) (by simp),
            specMerge_prim_obj _ _ (by simp) (by simp)]
        | num n => rw [mergeValue_prim_obj _ _ (by simp) (by simp),
            specMerge_prim_obj _ _ (by simp) (by simp)]
        | str s => rw [mergeValue_prim_obj _ _ (by simp) (by simp),
            specMerge_prim_obj _ _ (by simp) (by simp)]
  exact json_size_induction
    (P := fun vb => ∀ va, wfJ va → wfJ vb → mergeValue va vb = specMerge va vb)
    (fun b hstrong => main b hstrong)

theorem wfJ_obj_nil : wfJ (Json.obj []) := by
  rw [wfJ_obj_iff]
  simp

theorem specMergeObj_nil_left (a : List (String × Json)) : specMergeObj [] a = a := by
  unfold specMergeObj
  simp [getVal]

/-- C2, statement as amended.  For well-formed JSON objects `a` and `b`,
`object.union_n [a, b]` succeeds and returns the specification-side merge:
keys only in `a` keep `a`'s value, keys only in `b` are added with `b`'s
value, keys in both with two objects merge recursively, a null value on the
right leaves `a`'s value unchanged, two arrays replace, an object on the
right of an array is wrapped in a one-element array (the amended case), and
any other collision takes `b`'s value. -/
theorem union_n_pair_amended (a b : List (String × Json))
    (ha : wfJ (Json.obj a)) (hb : wfJ (Json.obj b)) :
    union_n [Json.obj a, Json.obj b] = Except.ok (specMerge (Json.obj a) (Json.obj b)) := by
  unfold union_n
  simp only [List.foldl]
  have hempty : mergeValue (Json.obj []) (Json.obj a) = Json.obj a := by
    rw [mergeValue_eq_specMerge _ _ wfJ_obj_nil ha, specMerge_obj_obj,
      specMergeObj_nil_left]
  rw [hempty, mergeValue_eq_specMerge _ _ ha hb]

/-- Witness for C2: at `a = ⦃"a": 1⦄`, `b = ⦃"b": 2⦄` the two hypotheses hold
and the union evaluates to ⦃"a": 1, "b": 2⦄. -/
theorem union_n_pair_amended_witness :
    union_n [Json.obj [("a", Json.num 1)], Json.obj [("b", Json.num 2)]]
      = Except.ok (Json.obj [("a", Json.num 1), ("b", Json.num 2)]) := by
  have h1 : wfJ (Json.obj [("a", Json.num 1)]) := by
    rw [wfJ_obj_iff]
    refine ⟨by simp, ?_⟩
    intro k v hm
    simp at hm
    rw [hm.2, wfJ]
    trivial
  have h2 : wfJ (Json.obj [("b", Json.num 2)]) := by
    rw [wfJ_obj_iff]
    refine ⟨by simp, ?_⟩
    intro k v hm
    simp at hm
    rw [hm.2, wfJ]
    trivial
  refine (union_n_pair_amended _ _ h1 h2).trans ?_
  rw [specMerge_obj_obj]
  simp [specMergeObj, updateEntry, getVal]

/-- Counterexample to C2 as stated: with `a = ⦃"k": []⦄` and
`b = ⦃"k": ⦃"x": 2⦄⦄` the collision has an array on the left and an object on
the right; the claim says `b`'s value overrides, but `union_n` wraps `b`'s
object in a one-element array. -/
theorem union_n_array_object_counterexample :
    union_n [Json.obj [("k", Json.arr [])],
        Json.obj [("k", Json.obj [("x", Json.num 2)])]]
      = Except.ok (Json.obj [("k", Json.arr [Json.obj [("x", Json.num 2)]])]) ∧
    Json.arr [Json.obj [("x", Json.num 2)]] ≠ Json.obj [("x", Json.num 2)] := by
  constructor
  · simp [union_n, mergeValue, mergeObjList, setKey, getVal]
  · intro h
    exact Json.noConfusion h

/-! ## `glob.quote_meta` (src/builtins/impls/glob.rs) -/

/-- Opening curly bracket character (written via its code point). -/
def lcurly : Char := Char.ofNat 123

/-- Closing curly bracket character (written via its code point). -/
def rcurly : Char := Char.ofNat 125

/-- Character class matched by the escape arms of `quote_meta`: asterisk,
question mark, backslash, square brackets and curly brackets. -/
def isGlobSpecial (c : Char) : Bool :=
  c == '*' || c == '?' || c == '\\' || c == '[' || c == ']' || c == lcurly || c == rcurly

/-- Embedding of the second loop of `quote_meta`: push a backslash before
every special character, other characters unchanged. -/
def escapeChars : List Char → List Char
  | [] => []
  | c :: rest => (if isGlobSpecial c then ['\\', c] else [c]) ++ escapeChars rest

/-- Embedding of `glob.quote_meta` from src/builtins/impls/glob.rs: scan for
any special character first (returning the input unchanged when there is
none), then rebuild the string with escapes. -/
def quote_meta (pattern : String) : Except String String :=
  let needs_escape := pattern.data.any isGlobSpecial
  if ! needs_escape then Except.ok pattern
  else Except.ok (String.mk (escapeChars pattern.data))

/-- Specification-side single escape: each special character prefixed with one
backslash, all other characters unchanged. -/
def escapeOnceSpec (l : List Char) : List Char :=
  l.flatMap fun c => if isGlobSpecial c then ['\\', c] else [c]

/-- Specification-side double escape: each special character of the original
string ends up escaped exactly twice (its backslash escaped once more), other
characters unchanged. -/
def escapeTwiceSpec (l : List Char) : List Char :=
  l.flatMap fun c => if isGlobSpecial c then ['\\', '\\', '\\', c] else [c]

theorem escapeChars_eq_spec (l : List Char) : escapeChars l = escapeOnceSpec l := by
  induction l with
  | nil => simp [escapeChars, escapeOnceSpec]
  | cons c rest ih => simp [escapeChars, escapeOnceSpec, ih]

theorem escapeOnceSpec_no_special {l : List Char}
    (h : l.any isGlobSpecial = false) : escapeOnceSpec l = l := by
  induction l with
  | nil => simp [escapeOnceSpec]
  | cons c rest ih =>
      simp [List.any_cons] at h
      simp [escapeOnceSpec, h.1] at ih ⊢
      exact ih h.2

theorem escapeOnceSpec_escapeOnceSpec (l : List Char) :
    escapeOnceSpec (escapeOnceSpec l) = escapeTwiceSpec l := by
  induction l with
  | nil => simp [escapeOnceSpec, escapeTwiceSpec]
  | cons c rest ih =>
      by_cases hc : isGlobSpecial c
      · have hbs : isGlobSpecial '\\' = true := rfl
        simp [escapeOnceSpec, escapeTwiceSpec, hc, hbs] at ih ⊢
        exact ih
      · simp [escapeOnceSpec, escapeTwiceSpec, hc] at ih ⊢
        exact ih

theorem escapeOnceSpec_cons (c : Char) (rest : List Char) :
    escapeOnceSpec (c :: rest)
      = (if isGlobSpecial c then ['\\', c] else [c]) ++ escapeOnceSpec rest := by
  simp [escapeOnceSpec]

theorem escapeTwiceSpec_no_special {l : List Char}
    (h : l.any isGlobSpecial = false) : escapeTwiceSpec l = l := by
  induction l with
  | nil => simp [escapeTwiceSpec]
  | cons c rest ih =>
      simp [List.any_cons] at h
      simp [escapeTwiceSpec, h.1] at ih ⊢
      exact ih h.2

theorem any_escapeOnceSpec {l : List Char} (h : l.any isGlobSpecial = true) :
    (escapeOnceSpec l).any isGlobSpecial = true := by
  induction l with
  | nil => simp at h
  | cons c rest ih =>
      rw [escapeOnceSpec_cons, List.any_append]
      by_cases hc : isGlobSpecial c
      · have hbs : isGlobSpecial '\\' = true := rfl
        rw [if_pos hc]
        simp [hbs]
      · have hr : rest.any isGlobSpecial = true := by
          rw [List.any_cons, Bool.or_eq_true] at h
          rcases h with h | h
          · exact absurd h hc
          · exact h
        rw [if_neg hc]
        simp [ih hr]

/-- C8: `glob.quote_meta` escapes exactly the characters `* ? \ [ ] ⦃ ⦄` by
prefixing each occurrence with a backslash and leaves every other character
unchanged; applying it twice escapes each special character of the input
exactly twice (three backslashes before the character) and no more. -/
theorem glob_quote_meta_double_escape (s : String) :
    quote_meta s = Except.ok (String.mk (escapeOnceSpec s.data)) ∧
    quote_meta (String.mk (escapeOnceSpec s.data))
      = Except.ok (String.mk (escapeTwiceSpec s.data)) := by
  constructor
  · unfold quote_meta
    rcases hany : s.data.any isGlobSpecial with _ | _
    · simp [hany, escapeOnceSpec_no_special hany]
    · simp [hany, escapeChars_eq_spec]
  · unfold quote_meta
    rcases hany : s.data.any isGlobSpecial with _ | _
    · rw [escapeOnceSpec_no_special hany]
      simp [hany, escapeOnceSpec_no_special hany, escapeTwiceSpec_no_special hany]
    · have h2 : ((String.mk (escapeOnceSpec s.data)).data.any isGlobSpecial) = true := by
        exact any_escapeOnceSpec hany
      simp [h2, escapeChars_eq_spec, escapeOnceSpec_escapeOnceSpec]

/-! ## `trace` (src/builtins/impls/mod.rs) -/

/-- Embedding of `trace` from src/builtins/impls/mod.rs: the body is
`bail!("not implemented")`. -/
def trace (note : String) : Except String Bool := Except.error "not implemented"

/-- Counterexample to C6: `trace("Hello There!")` does not succeed with
`true`; it fails with "not implemented". -/
theorem trace_not_noop_counterexample :
    trace "Hello There!" = Except.error "not implemented" ∧
    trace "Hello There!" ≠ Except.ok true := by
  constructor
  · rfl
  · intro h
    exact Except.noConfusion h

/-- C6, statement as amended: for every string `note`, the builtin
`trace(note)` returns the error "not implemented" (the source is a declared
stub). -/
theorem trace_amended_always_errors (note : String) :
    trace note = Except.error "not implemented" := rfl

/-! ## ABI version (src/types.rs and src/policy.rs) -/

/-- ABI versions supported by the runtime, modelling `AbiVersion` from
src/types.rs. -/
inductive AbiVersion where
  | V1_0 : AbiVersion
  | V1_1 : AbiVersion
  | V1_2 : AbiVersion
  | V1_2Plus (n : Int) : AbiVersion

/-- Embedding of `AbiVersion::new` from src/types.rs; the `i32` version
numbers are modelled as integers, and the match arms are in source order
(`(1, 0)`, `(1, 1)`, `(1, 2)`, `(1, n @ 2..)`, reject). -/
def AbiVersion.new (major minor : Int) : Except String AbiVersion :=
  if major = 1 ∧ minor = 0 then Except.ok AbiVersion.V1_0
  else if major = 1 ∧ minor = 1 then Except.ok AbiVersion.V1_1
  else if major = 1 ∧ minor = 2 then Except.ok AbiVersion.V1_2
  else if major = 1 ∧ 2 ≤ minor then Except.ok (AbiVersion.V1_2Plus minor)
  else Except.error "unsupported ABI version"

/-- Embedding of `AbiVersion::has_eval_fastpath` from src/types.rs:
`matches!(self, Self::V1_2 | Self::V1_2Plus(_))`. -/
def AbiVersion.has_eval_fastpath : AbiVersion → Bool
  | AbiVersion.V1_2 => true
  | AbiVersion.V1_2Plus _ => true
  | _ => false

/-- Embedding of the `opa_eval` binding lookup in
`Runtime::new_with_evaluation_context` (src/policy.rs):
`version.has_eval_fastpath().then(|| ...)` — the binding is present exactly
when the fast path is advertised. -/
def opaEvalFuncLookup (version : AbiVersion) : Option Unit :=
  if version.has_eval_fastpath then some () else none

/-- C7: ABI construction accepts exactly the pairs (1,0), (1,1), (1,2) and
(1,n) for n ≥ 2 (equivalently, major 1 and minor ≥ 0) and rejects every other
pair, and the fast-path `opa_eval` export binding is looked up during Runtime
construction exactly when the accepted version is 1.2 or later. -/
theorem abi_version_acceptance_fastpath (major minor : Int) :
    ((∃ v, AbiVersion.new major minor = Except.ok v) ↔ major = 1 ∧ 0 ≤ minor) ∧
    (∀ v, AbiVersion.new major minor = Except.ok v →
      ((opaEvalFuncLookup v).isSome = true ↔ 2 ≤ minor)) := by
  unfold AbiVersion.new
  split_ifs with h1 h2 h3 h4
  · refine ⟨by simp; omega, ?_⟩
    intro v hv
    cases hv
    simp [opaEvalFuncLookup, AbiVersion.has_eval_fastpath]
    omega
  · refine ⟨by simp; omega, ?_⟩
    intro v hv
    cases hv
    simp [opaEvalFuncLookup, AbiVersion.has_eval_fastpath]
    omega
  · refine ⟨by simp; omega, ?_⟩
    intro v hv
    cases hv
    simp [opaEvalFuncLookup, AbiVersion.has_eval_fastpath]
    omega
  · refine ⟨by simp; omega, ?_⟩
    intro v hv
    cases hv
    simp [opaEvalFuncLookup, AbiVersion.has_eval_fastpath]
    omega
  · refine ⟨by simp; omega, ?_⟩
    intro v hv
    simp at hv

/-- Witness for C7 at major 1, minor 3: accepted, and the fast-path binding
is looked up. -/
theorem abi_version_acceptance_fastpath_witness :
    (∃ v, AbiVersion.new 1 3 = Except.ok v) ∧
    ((opaEvalFuncLookup (AbiVersion.V1_2Plus 3)).isSome = true ↔ 2 ≤ (3 : Int)) := by
  refine ⟨(abi_version_acceptance_fastpath 1 3).1.mpr (by norm_num), ?_⟩
  exact (abi_version_acceptance_fastpath 1 3).2 (AbiVersion.V1_2Plus 3) (by rfl)

/-! ## `rand.intn`, `uuid.rfc4122` and the evaluation cache
(src/builtins/impls/rand.rs, src/builtins/impls/uuid.rs, src/context.rs)

The `DefaultContext` cache is a `HashMap<String, serde_json::Value>` keyed by
the JSON serialisation of the builtin's key; `rand.intn` keys by the tuple
`("rand", str, n)`.  JSON serialisation is injective on these tuples, so the
cache is modelled keyed by the tuple itself.  `rand.intn` is the only builtin
in the source that touches the cache (`uuid.rfc4122` is a stub), so an
evaluation's cache history is a sequence of `intn` calls.  The value drawn
from the thread-local RNG is an oracle argument `draw`. -/

/-- Cache key used by `rand.intn`: the tuple `("rand", str, n)`. -/
abbrev RandKey := String × String × Int

/-- Lookup in the evaluation cache (`HashMap::get`). -/
def cacheLookup : List (RandKey × Json) → RandKey → Option Json
  | [], _ => none
  | (k', v') :: rest, k => if k' = k then some v' else cacheLookup rest k

/-- Insertion into the evaluation cache (`HashMap::insert` replaces any
previous value for the key). -/
def cacheInsert : List (RandKey × Json) → RandKey → Json → List (RandKey × Json)
  | [], k, v => [(k, v)]
  | (k', v') :: rest, k, v =>
      if k' = k then (k', v) :: rest else (k', v') :: cacheInsert rest k v

/-- Evaluation context state visible to `rand.intn`: the per-evaluation
cache of `DefaultContext` (src/context.rs). -/
structure EvalCtx where
  cache : List (RandKey × Json)

/-- Embedding of `DefaultContext::evaluation_start` (src/context.rs): the
cache is replaced by a fresh empty map. -/
def evaluation_start (_ctx : EvalCtx) : EvalCtx := ⟨[]⟩

/-- Embedding of `DefaultContext::cache_get` at the types used by
`rand.intn`: a missing key yields `Ok(None)`; a present value deserialises to
an `i64`, failing when the stored JSON is not a number. -/
def cache_get (ctx : EvalCtx) (key : RandKey) : Except String (Option Int) :=
  match cacheLookup ctx.cache key with
  | none => Except.ok none
  | some (Json.num v) => Except.ok (some v)
  | some _ => Except.error "failed to deserialize cached value"

/-- Embedding of `DefaultContext::cache_set` at the types used by
`rand.intn`: the `i64` value is stored as a JSON number. -/
def cache_set (ctx : EvalCtx) (key : RandKey) (content : Int) : EvalCtx :=
  ⟨cacheInsert ctx.cache key (Json.num content)⟩

/-- Embedding of `rand.intn` from src/builtins/impls/rand.rs.  `draw` is the
oracle for `rng.gen_range(0..n)`.  The source checks `n == 0`, then `n < 0`,
then consults the cache (propagating its error), and only on a miss draws a
fresh value and stores it. -/
def intn (ctx : EvalCtx) (key : String) (n : Int) (draw : Int) :
    Except String Int × EvalCtx :=
  if n = 0 then (Except.ok 0, ctx)
  else if n < 0 then (Except.error "rand.intn: n must be a positive integer", ctx)
  else
    match cache_get ctx ("rand", key, n) with
    | Except.error e => (Except.error e, ctx)
    | Except.ok (some v) => (Except.ok v, ctx)
    | Except.ok none => (Except.ok draw, cache_set ctx ("rand", key, n) draw)

/-- Embedding of `uuid.rfc4122` from src/builtins/impls/uuid.rs: the body is
`bail!("not implemented")`. -/
def rfc4122 (k : String) : Except String String := Except.error "not implemented"

/-- One `rand.intn` invocation: key, bound, and RNG oracle value. -/
structure IntnCall where
  key : String
  n : Int
  draw : Int
deriving DecidableEq

/-- Trace semantics: run a sequence of `rand.intn` calls, threading the
evaluation context, and record each call with its result. -/
def runIntnCalls (ctx : EvalCtx) : List IntnCall → List (IntnCall × Except String Int)
  | [] => []
  | c :: rest =>
      let step := intn ctx c.key c.n c.draw
      (c, step.1) :: runIntnCalls step.2 rest

theorem cacheLookup_insert_self (l : List (RandKey × Json)) (k : RandKey) (v : Json) :
    cacheLookup (cacheInsert l k v) k = some v := by
  induction l with
  | nil => simp [cacheInsert, cacheLookup]
  | cons p rest ih =>
      obtain ⟨k', v'⟩ := p
      by_cases hk : k' = k
      · simp [cacheInsert, hk, cacheLookup]
      · simp [cacheInsert, hk, cacheLookup, ih]

theorem cacheLookup_insert_ne {l : List (RandKey × Json)} {k k' : RandKey} (v : Json)
    (h : k' ≠ k) : cacheLookup (cacheInsert l k v) k' = cacheLookup l k' := by
  induction l with
  | nil => simp [cacheInsert, cacheLookup, Ne.symm h]
  | cons p rest ih =>
      obtain ⟨k₁, v₁⟩ := p
      by_cases hk : k₁ = k
      · subst hk
        simp [cacheInsert, cacheLookup, Ne.symm h]
      · simp [cacheInsert, hk, cacheLookup, ih]

theorem cache_get_ok_some {ctx : EvalCtx} {key : RandKey} {v : Int}
    (h : cache_get ctx key = Except.ok (some v)) :
    cacheLookup ctx.cache key = some (Json.num v) := by
  unfold cache_get at h
  rcases hl : cacheLookup ctx.cache key with _ | j
  · rw [hl] at h
    simp at h
  · rw [hl] at h
    cases j <;> simp at h
    rw [h]

theorem cache_get_ok_none {ctx : EvalCtx} {key : RandKey}
    (h : cache_get ctx key = Except.ok none) :
    cacheLookup ctx.cache key = none := by
  unfold cache_get at h
  rcases hl : cacheLookup ctx.cache key with _ | j
  · rfl
  · rw [hl] at h
    cases j <;> simp at h

theorem intn_zero (ctx : EvalCtx) (k : String) (d : Int) :
    intn ctx k 0 d = (Except.ok 0, ctx) := by
  simp [intn]

theorem intn_neg (ctx : EvalCtx) (k : String) {n : Int} (d : Int) (h : n < 0) :
    intn ctx k n d = (Except.error "rand.intn: n must be a positive integer", ctx) := by
  have h0 : ¬n = 0 := by omega
  simp [intn, h0, h]

theorem intn_pos_err (ctx : EvalCtx) (k : String) {n : Int} (d : Int) {e : String}
    (h : 0 < n) (he : cache_get ctx ("rand", k, n) = Except.error e) :
    intn ctx k n d = (Except.error e, ctx) := by
  have h0 : ¬n = 0 := by omega
  have h1 : ¬n < 0 := by omega
  simp [intn, h0, h1, he]

theorem intn_pos_hit (ctx : EvalCtx) (k : String) {n : Int} (d : Int) {v : Int}
    (h : 0 < n) (hv : cache_get ctx ("rand", k, n) = Except.ok (some v)) :
    intn ctx k n d = (Except.ok v, ctx) := by
  have h0 : ¬n = 0 := by omega
  have h1 : ¬n < 0 := by omega
  simp [intn, h0, h1, hv]

theorem intn_pos_miss (ctx : EvalCtx) (k : String) {n : Int} (d : Int)
    (h : 0 < n) (hm : cache_get ctx ("rand", k, n) = Except.ok none) :
    intn ctx k n d = (Except.ok d, cache_set ctx ("rand", k, n) d) := by
  have h0 : ¬n = 0 := by omega
  have h1 : ¬n < 0 := by omega
  simp [intn, h0, h1, hm]

/-- Invariants of a trace of `rand.intn` calls: a cached value for a key with
positive bound predicts every successful result for those arguments; calls
with `n = 0` always return 0; calls with `n < 0` never succeed; and any two
successful calls with equal arguments return equal values. -/
theorem runIntnCalls_props :
    ∀ (calls : List IntnCall) (ctx : EvalCtx),
      (∀ s n v, 0 < n → cacheLookup ctx.cache ("rand", s, n) = some (Json.num v) →
        ∀ c w, (c, Except.ok w) ∈ runIntnCalls ctx calls → c.key = s → c.n = n → w = v) ∧
      (∀ c w, (c, Except.ok w) ∈ runIntnCalls ctx calls → c.n = 0 → w = 0) ∧
      (∀ c w, (c, Except.ok w) ∈ runIntnCalls ctx calls → ¬c.n < 0) ∧
      (∀ c₁ c₂ w₁ w₂, (c₁, Except.ok w₁) ∈ runIntnCalls ctx calls →
        (c₂, Except.ok w₂) ∈ runIntnCalls ctx calls →
        c₁.key = c₂.key → c₁.n = c₂.n → w₁ = w₂) := by
  intro calls
  induction calls with
  | nil =>
      intro ctx
      refine ⟨?_, ?_, ?_, ?_⟩ <;> intro _ <;> simp [runIntnCalls]
  | cons c rest ih =>
      intro ctx
      have hpair : ∀ (c₁ c₂ : IntnCall) (w : Int) (r : Except String Int),
          ((c₁, Except.ok w) : IntnCall × Except String Int) = (c₂, r) →
          c₁ = c₂ ∧ Except.ok w = r :=
        fun _ _ _ _ h => ⟨congrArg Prod.fst h, congrArg Prod.snd h⟩
      rcases lt_trichotomy c.n 0 with hlt | heq | hgt
      · -- n < 0 : the head call fails, context unchanged
        obtain ⟨ihA, ihC, ihD, ihB⟩ := ih ctx
        have hrun : runIntnCalls ctx (c :: rest)
            = (c, Except.error "rand.intn: n must be a positive integer")
              :: runIntnCalls ctx rest := by
          simp [runIntnCalls, intn_neg ctx c.key c.draw hlt]
        rw [hrun]
        have hhead : ∀ (c' : IntnCall) (w : Int),
            ((c', Except.ok w) : IntnCall × Except String Int)
              = (c, Except.error "rand.intn: n must be a positive integer") → False := by
          intro c' w h
          exact Except.noConfusion (hpair _ _ _ _ h).2
        refine ⟨?_, ?_, ?_, ?_⟩
        · intro s n v hn hlook c' w hmem hk hn'
          rcases List.mem_cons.mp hmem with he | hm
          · exact absurd he (hhead c' w)
          · exact ihA s n v hn hlook c' w hm hk hn'
        · intro c' w hmem h0
          rcases List.mem_cons.mp hmem with he | hm
          · exact absurd he (hhead c' w)
          · exact ihC c' w hm h0
        · intro c' w hmem
          rcases List.mem_cons.mp hmem with he | hm
          · exact absurd he (hhead c' w)
          · exact ihD c' w hm
        · intro c₁ c₂ w₁ w₂ h₁ h₂ hk hn'
          rcases List.mem_cons.mp h₁ with he₁ | hm₁
          · exact absurd he₁ (hhead c₁ w₁)
          rcases List.mem_cons.mp h₂ with he₂ | hm₂
          · exact absurd he₂ (hhead c₂ w₂)
          exact ihB c₁ c₂ w₁ w₂ hm₁ hm₂ hk hn'
      · -- n = 0 : the head call returns 0 without touching the cache
        obtain ⟨ihA, ihC, ihD, ihB⟩ := ih ctx
        have hrun : runIntnCalls ctx (c :: rest)
            = (c, Except.ok 0) :: runIntnCalls ctx rest := by
          simp [runIntnCalls, heq, intn_zero]
        rw [hrun]
        refine ⟨?_, ?_, ?_, ?_⟩
        · intro s n v hn hlook c' w hmem hk hn'
          rcases List.mem_cons.mp hmem with he | hm
          · obtain ⟨he1, _⟩ := hpair _ _ _ _ he
            rw [he1, heq] at hn'
            omega
          · exact ihA s n v hn hlook c' w hm hk hn'
        · intro c' w hmem h0
          rcases List.mem_cons.mp hmem with he | hm
          · exact Except.ok.inj (hpair _ _ _ _ he).2
          · exact ihC c' w hm h0
        · intro c' w hmem
          rcases List.mem_cons.mp hmem with he | hm
          · obtain ⟨he1, _⟩ := hpair _ _ _ _ he
            rw [he1, heq]
            omega
          · exact ihD c' w hm
        · intro c₁ c₂ w₁ w₂ h₁ h₂ hk hn'
          rcases List.mem_cons.mp h₁ with he₁ | hm₁ <;>
            rcases List.mem_cons.mp h₂ with he₂ | hm₂
          · have e1 := Except.ok.inj (hpair _ _ _ _ he₁).2
            have e2 := Except.ok.inj (hpair _ _ _ _ he₂).2
            omega
          · obtain ⟨he1, hw1⟩ := hpair _ _ _ _ he₁
            have h20 : c₂.n = 0 := by rw [← hn', he1, heq]
            have e1 := Except.ok.inj hw1
            have e2 := ihC c₂ w₂ hm₂ h20
            omega
          · obtain ⟨he2, hw2⟩ := hpair _ _ _ _ he₂
            have h10 : c₁.n = 0 := by rw [hn', he2, heq]
            have e2 := Except.ok.inj hw2
            have e1 := ihC c₁ w₁ hm₁ h10
            omega
          · exact ihB c₁ c₂ w₁ w₂ hm₁ hm₂ hk hn'
      · -- 0 < n : consult the cache
        rcases hcg : cache_get ctx ("rand", c.key, c.n) with e | ov
        · -- cache_get failed: the head call fails, context unchanged
          obtain ⟨ihA, ihC, ihD, ihB⟩ := ih ctx
          have hrun : runIntnCalls ctx (c :: rest)
              = (c, Except.error e) :: runIntnCalls ctx rest := by
            simp [runIntnCalls, intn_pos_err ctx c.key c.draw hgt hcg]
          rw [hrun]
          have hhead : ∀ (c' : IntnCall) (w : Int),
              ((c', Except.ok w) : IntnCall × Except String Int)
                = (c, Except.error e) → False := by
            intro c' w h
            exact Except.noConfusion (hpair _ _ _ _ h).2
          refine ⟨?_, ?_, ?_, ?_⟩
          · intro s n v hn hlook c' w hmem hk hn'
            rcases List.mem_cons.mp hmem with he | hm
            · exact absurd he (hhead c' w)
            · exact ihA s n v hn hlook c' w hm hk hn'
          · intro c' w hmem h0
            rcases List.mem_cons.mp hmem with he | hm
            · exact absurd he (hhead c' w)
            · exact ihC c' w hm h0
          · intro c' w hmem
            rcases List.mem_cons.mp hmem with he | hm
            · exact absurd he (hhead c' w)
            · exact ihD c' w hm
          · intro c₁ c₂ w₁ w₂ h₁ h₂ hk hn'
            rcases List.mem_cons.mp h₁ with he₁ | hm₁
            · exact absurd he₁ (hhead c₁ w₁)
            rcases List.mem_cons.mp h₂ with he₂ | hm₂
            · exact absurd he₂ (hhead c₂ w₂)
            exact ihB c₁ c₂ w₁ w₂ hm₁ hm₂ hk hn'
        rcases ov with _ | v₀
        · -- cache miss: draw, store, context extended
          have hlknone := cache_get_ok_none hcg
          obtain ⟨ihA, ihC, ihD, ihB⟩ := ih (cache_set ctx ("rand", c.key, c.n) c.draw)
          have hrun : runIntnCalls ctx (c :: rest)
              = (c, Except.ok c.draw)
                :: runIntnCalls (cache_set ctx ("rand", c.key, c.n) c.draw) rest := by
            simp [runIntnCalls, intn_pos_miss ctx c.key c.draw hgt hcg]
          rw [hrun]
          have hself : cacheLookup (cache_set ctx ("rand", c.key, c.n) c.draw).cache
              ("rand", c.key, c.n) = some (Json.num c.draw) := by
            simp [cache_set]
            exact cacheLookup_insert_self _ _ _
          refine ⟨?_, ?_, ?_, ?_⟩
          · intro s n v hn hlook c' w hmem hk hn'
            by_cases hkey : (("rand", s, n) : RandKey) = ("rand", c.key, c.n)
            · rw [hkey, hlknone] at hlook
              exact Option.noConfusion hlook
            · rcases List.mem_cons.mp hmem with he | hm
              · obtain ⟨he1, _⟩ := hpair _ _ _ _ he
                refine absurd ?_ hkey
                rw [← hk, ← hn', he1]
              · refine ihA s n v hn ?_ c' w hm hk hn'
                rw [show (cache_set ctx ("rand", c.key, c.n) c.draw).cache
                    = cacheInsert ctx.cache ("rand", c.key, c.n) (Json.num c.draw)
                  from rfl]
                rw [cacheLookup_insert_ne _ hkey]
                exact hlook
          · intro c' w hmem h0
            rcases List.mem_cons.mp hmem with he | hm
            · obtain ⟨he1, _⟩ := hpair _ _ _ _ he
              rw [he1] at h0
              omega
            · exact ihC c' w hm h0
          · intro c' w hmem
            rcases List.mem_cons.mp hmem with he | hm
            · obtain ⟨he1, _⟩ := hpair _ _ _ _ he
              rw [he1]
              omega
            · exact ihD c' w hm
          · intro c₁ c₂ w₁ w₂ h₁ h₂ hk hn'
            rcases List.mem_cons.mp h₁ with he₁ | hm₁ <;>
              rcases List.mem_cons.mp h₂ with he₂ | hm₂
            · have e1 := Except.ok.inj (hpair _ _ _ _ he₁).2
              have e2 := Except.ok.inj (hpair _ _ _ _ he₂).2
              omega
            · obtain ⟨he1, hw1⟩ := hpair _ _ _ _ he₁
              have e1 := Except.ok.inj hw1
              have e2 := ihA c.key c.n c.draw hgt hself c₂ w₂ hm₂
                (by rw [← hk, he1]) (by rw [← hn', he1])
              omega
            · obtain ⟨he2, hw2⟩ := hpair _ _ _ _ he₂
              have e2 := Except.ok.inj hw2
              have e1 := ihA c.key c.n c.draw hgt hself c₁ w₁ hm₁
                (by rw [hk, he2]) (by rw [hn', he2])
              omega
            · exact ihB c₁ c₂ w₁ w₂ hm₁ hm₂ hk hn'
        · -- cache hit: return the stored value, context unchanged
          have hlk := cache_get_ok_some hcg
          obtain ⟨ihA, ihC, ihD, ihB⟩ := ih ctx
          have hrun : runIntnCalls ctx (c :: rest)
              = (c, Except.ok v₀) :: runIntnCalls ctx rest := by
            simp [runIntnCalls, intn_pos_hit ctx c.key c.draw hgt hcg]
          rw [hrun]
          refine ⟨?_, ?_, ?_, ?_⟩
          · intro s n v hn hlook c' w hmem hk hn'
            rcases List.mem_cons.mp hmem with he | hm
            · obtain ⟨he1, hw⟩ := hpair _ _ _ _ he
              have hkey : (("rand", s, n) : RandKey) = ("rand", c.key, c.n) := by
                rw [← hk, ← hn', he1]
              rw [hkey, hlk] at hlook
              have hv : v₀ = v := by
                have := Option.some.inj hlook
                exact (Json.num.inj this)
              have e1 := Except.ok.inj hw
              omega
            · exact ihA s n v hn hlook c' w hm hk hn'
          · intro c' w hmem h0
            rcases List.mem_cons.mp hmem with he | hm
            · obtain ⟨he1, _⟩ := hpair _ _ _ _ he
              rw [he1] at h0
              omega
            · exact ihC c' w hm h0
          · intro c' w hmem
            rcases List.mem_cons.mp hmem with he | hm
            · obtain ⟨he1, _⟩ := hpair _ _ _ _ he
              rw [he1]
              omega
            · exact ihD c' w hm
          · intro c₁ c₂ w₁ w₂ h₁ h₂ hk hn'
            rcases List.mem_cons.mp h₁ with he₁ | hm₁ <;>
              rcases List.mem_cons.mp h₂ with he₂ | hm₂
            · have e1 := Except.ok.inj (hpair _ _ _ _ he₁).2
              have e2 := Except.ok.inj (hpair _ _ _ _ he₂).2
              omega
            · obtain ⟨he1, hw1⟩ := hpair _ _ _ _ he₁
              have e1 := Except.ok.inj hw1
              have e2 := ihA c.key c.n v₀ hgt hlk c₂ w₂ hm₂
                (by rw [← hk, he1]) (by rw [← hn', he1])
              omega
            · obtain ⟨he2, hw2⟩ := hpair _ _ _ _ he₂
              have e2 := Except.ok.inj hw2
              have e1 := ihA c.key c.n v₀ hgt hlk c₁ w₁ hm₁
                (by rw [hk, he2]) (by rw [hn', he2])
              omega
            · exact ihB c₁ c₂ w₁ w₂ hm₁ hm₂ hk hn'

/-- C3, statement as amended.  Within a single evaluation — that is, on the
context produced by `evaluation_start`, which clears the per-evaluation
cache — any two `rand.intn` calls with equal arguments `(k, n)` that succeed
return the same integer, whatever the RNG draws were; `uuid.rfc4122`,
however, never succeeds: for every key it returns the error
"not implemented" (it is a stub in the source). -/
theorem rand_intn_memoised_uuid_stub (ctx₀ : EvalCtx) (calls : List IntnCall)
    (c₁ c₂ : IntnCall) (w₁ w₂ : Int)
    (h₁ : (c₁, Except.ok w₁) ∈ runIntnCalls (evaluation_start ctx₀) calls)
    (h₂ : (c₂, Except.ok w₂) ∈ runIntnCalls (evaluation_start ctx₀) calls)
    (hk : c₁.key = c₂.key) (hn : c₁.n = c₂.n) :
    w₁ = w₂ ∧ ∀ s, rfc4122 s = Except.error "not implemented" :=
  ⟨(runIntnCalls_props calls (evaluation_start ctx₀)).2.2.2 c₁ c₂ w₁ w₂ h₁ h₂ hk hn,
   fun _ => rfl⟩

/-- Witness for C3 (amended): on the trace `intn "k" 5` (draw 3) followed by
`intn "k" 5` (draw 4), both calls return 3 — the second call's differing draw
is ignored because of the cache. -/
theorem rand_intn_memoised_uuid_stub_witness :
    (3 : Int) = 3 ∧ ∀ s, rfc4122 s = Except.error "not implemented" := by
  have hrun : runIntnCalls (evaluation_start ⟨[]⟩)
      [⟨"k", 5, 3⟩, ⟨"k", 5, 4⟩]
      = [(⟨"k", 5, 3⟩, Except.ok 3), (⟨"k", 5, 4⟩, Except.ok 3)] := by
    simp [runIntnCalls, evaluation_start, intn, cache_get, cacheLookup,
      cache_set, cacheInsert]
  exact rand_intn_memoised_uuid_stub ⟨[]⟩ [⟨"k", 5, 3⟩, ⟨"k", 5, 4⟩]
    ⟨"k", 5, 3⟩ ⟨"k", 5, 4⟩ 3 3
    (by rw [hrun]; simp) (by rw [hrun]; simp) rfl rfl

/-- Counterexample to C3 as stated: the `uuid.rfc4122` half of the claim
fails — the call with key "k" does not succeed and return a string, it
returns the error "not implemented". -/
theorem uuid_rfc4122_never_succeeds :
    rfc4122 "k" = Except.error "not implemented" ∧ (rfc4122 "k").isOk = false :=
  ⟨rfl, rfl⟩

/-- C9: `rand.intn(k, 0)` returns 0 with the evaluation context unchanged
(the cache is neither consulted nor updated), and `rand.intn(k, n)` with
`n < 0` returns the error "rand.intn: n must be a positive integer", also
with the context unchanged. -/
theorem rand_intn_zero_and_negative (ctx : EvalCtx) (k : String) (d : Int) :
    intn ctx k 0 d = (Except.ok 0, ctx) ∧
    ∀ n : Int, n < 0 →
      intn ctx k n d = (Except.error "rand.intn: n must be a positive integer", ctx) :=
  ⟨intn_zero ctx k d, fun _ hn => intn_neg ctx k d hn⟩

/-- Witness for C9 at `k = "k"`, `n = -3`, draw 7, on a context with one
cached entry: both branches hold, and the context comes back unchanged. -/
theorem rand_intn_zero_and_negative_witness :
    intn ⟨[(("rand", "a", 2), Json.num 1)]⟩ "k" 0 7
      = (Except.ok 0, (⟨[(("rand", "a", 2), Json.num 1)]⟩ : EvalCtx)) ∧
    ((-3 : Int) < 0 ∧
      intn ⟨[(("rand", "a", 2), Json.num 1)]⟩ "k" (-3) 7
        = (Except.error "rand.intn: n must be a positive integer",
            (⟨[(("rand", "a", 2), Json.num 1)]⟩ : EvalCtx))) :=
  ⟨(rand_intn_zero_and_negative ⟨[(("rand", "a", 2), Json.num 1)]⟩ "k" 7).1,
    by norm_num,
    (rand_intn_zero_and_negative ⟨[(("rand", "a", 2), Json.num 1)]⟩ "k" 7).2
      (-3) (by norm_num)⟩

/-! ## `urlquery.encode_object` (src/builtins/impls/urlquery.rs) -/

/-- Embedding of `concat_encode_query`: `format!("⦃⦄=⦃⦄", key, value)`. -/
def concat_encode_query (key value : String) : String := key ++ "=" ++ value

/-- Model of `v.as_str().unwrap_or("")`: the payload of a JSON string, the
empty string otherwise. -/
def asStrOrEmpty : Json → String
  | Json.str s => s
  | _ => ""

/-- Sorting of the encoded segments, modelling `Vec::sort` on `Vec<String>`
(lexicographic; Rust's byte-wise order and the character-wise order coincide
because UTF-8 preserves code-point order). -/
def sortStrings (l : List String) : List String :=
  l.mergeSort fun a b => a ≤ b

/-- Embedding of `urlquery.encode_object` from src/builtins/impls/urlquery.rs.
The input `HashMap<String, Value>` is modelled as an entry list in an
arbitrary iteration order; array values contribute one `key=value` segment
per element, every other value one segment; the segments are sorted and
joined with "&". -/
def encode_object (x : List (String × Json)) : String :=
  String.intercalate "&" (sortStrings (x.flatMap fun p =>
    match p.2 with
    | Json.arr a => a.map fun v => concat_encode_query p.1 (asStrOrEmpty v)
    | _ => [concat_encode_query p.1 (asStrOrEmpty p.2)]))

theorem sortStrings_perm_congr {l₁ l₂ : List String} (h : l₁.Perm l₂) :
    sortStrings l₁ = sortStrings l₂ := by
  have p₁ : (sortStrings l₁).Perm l₁ := List.mergeSort_perm l₁ _
  have p₂ : (sortStrings l₂).Perm l₂ := List.mergeSort_perm l₂ _
  have s₁ : List.Sorted (· ≤ ·) (sortStrings l₁) := List.sorted_mergeSort' l₁
  have s₂ : List.Sorted (· ≤ ·) (sortStrings l₂) := List.sorted_mergeSort' l₂
  exact List.eq_of_perm_of_sorted ((p₁.trans h).trans p₂.symm) s₁ s₂

/-- C10: `urlquery.encode_object` is deterministic with respect to the
iteration order of its input map — the `key=value` segments are sorted before
being joined with "&", so any two permutations of the same entries produce
identical output strings. -/
theorem encode_object_order_independent (x y : List (String × Json))
    (h : x.Perm y) : encode_object x = encode_object y := by
  unfold encode_object
  rw [sortStrings_perm_congr (h.flatMap_right _)]

/-- Witness for C10: the two orders of ⦃"b": "2", "a": "1"⦄ encode to the
same string "a=1&b=2". -/
theorem encode_object_order_independent_witness :
    encode_object [("b", Json.str "2"), ("a", Json.str "1")]
      = encode_object [("a", Json.str "1"), ("b", Json.str "2")] ∧
    encode_object [("b", Json.str "2"), ("a", Json.str "1")] = "a=1&b=2" := by
  constructor
  · exact encode_object_order_independent _ _
      (List.Perm.swap ("a", Json.str "1") ("b", Json.str "2") [])
  · have hsorted : List.Sorted (· ≤ ·) ["a=1", "b=2"] := by
      simp [List.sorted_cons]
      decide
    have hsort : sortStrings ["b=2", "a=1"] = ["a=1", "b=2"] := by
      refine List.eq_of_perm_of_sorted ?_ (List.sorted_mergeSort' _) hsorted
      exact (List.mergeSort_perm _ _).trans (List.Perm.swap "a=1" "b=2" [])
    have hseg : encode_object [("b", Json.str "2"), ("a", Json.str "1")]
        = String.intercalate "&" (sortStrings ["b=2", "a=1"]) := by
      simp [encode_object, concat_encode_query, asStrOrEmpty]
    rw [hseg, hsort]
    rfl

/-! ## `http.send` response conversion (src/builtins/impls/http.rs)

`convert_http_resp_to_opa_resp` is modelled with the two deserialisers
(`serde_json::from_str` and `serde_yaml::from_str`, both external crates)
abstracted as function arguments returning `Option Json`.  The
`http::Response<String>` is a status, a header list (names lowercase, the
`http` crate's invariant) and a body string. -/

/-- Model of `http::Response<String>` as consumed by the conversion. -/
structure HttpResponse where
  status : Nat
  headers : List (String × String)
  body : String

/-- Model of collecting the header pairs into a `HashMap` and serialising it:
later duplicates override earlier ones. -/
def headerMapEntries (hs : List (String × String)) : List (String × Json) :=
  hs.foldl (fun acc p => setKey acc p.1 (Json.str p.2)) []

/-- Model of `HeaderMap::get(name)`: the first header with that name. -/
def findHeader : List (String × String) → String → Option String
  | [], _ => none
  | (k, v) :: rest, name => if k = name then some v else findHeader rest name

/-- Embedding of `convert_http_resp_to_opa_resp` from
src/builtins/impls/http.rs: build
`⦃ status_code, headers ⦄`, insert `raw_body`, then, matching the source's
`if / else if` chain, try JSON decoding when forced or when the content type
is exactly "application/json", and only otherwise try YAML decoding when
forced or when the content type is exactly "application/yaml" or
"application/x-yaml"; a `body` key is inserted only when the chosen parse
succeeds. -/
def convert_http_resp_to_opa_resp (jsonParse yamlParse : String → Option Json)
    (response : HttpResponse) (force_json_decode force_yaml_decode : Bool) : Json :=
  let base : List (String × Json) :=
    [("status_code", Json.num response.status),
     ("headers", Json.obj (headerMapEntries response.headers))]
  let withRaw := setKey base "raw_body" (Json.str response.body)
  let content_type := findHeader response.headers "content-type"
  if force_json_decode || content_type == some "application/json" then
    match jsonParse response.body with
    | some parsed => Json.obj (setKey withRaw "body" parsed)
    | none => Json.obj withRaw
  else if force_yaml_decode || content_type == some "application/yaml"
      || content_type == some "application/x-yaml" then
    match yamlParse response.body with
    | some parsed => Json.obj (setKey withRaw "body" parsed)
    | none => Json.obj withRaw
  else Json.obj withRaw

/-- C5, statement as amended.  For every response, the OPA response object
contains `status_code`, `headers` and `raw_body`; it contains `body` exactly
when the source's branch chain produces a parse: the JSON branch (forced or
content type exactly "application/json") has priority and its parse result
decides the field, and only when that branch is not selected does the YAML
branch (forced or content type exactly "application/yaml" /
"application/x-yaml") run; in particular a failed parse in the selected
branch leaves no `body` field, with no fallback to the other format. -/
theorem http_resp_fields_amended (jsonParse yamlParse : String → Option Json)
    (response : HttpResponse) (fj fy : Bool) :
    ∃ entries,
      convert_http_resp_to_opa_resp jsonParse yamlParse response fj fy
        = Json.obj entries ∧
      getVal entries "status_code" = some (Json.num response.status) ∧
      getVal entries "headers" = some (Json.obj (headerMapEntries response.headers)) ∧
      getVal entries "raw_body" = some (Json.str response.body) ∧
      getVal entries "body" =
        (if fj || findHeader response.headers "content-type" == some "application/json" then
          jsonParse response.body
        else if fy || findHeader response.headers "content-type" == some "application/yaml"
            || findHeader response.headers "content-type" == some "application/x-yaml" then
          yamlParse response.body
        else none) := by
  have hRaw : setKey [("status_code", Json.num response.status),
      ("headers", Json.obj (headerMapEntries response.headers))] "raw_body"
      (Json.str response.body)
      = [("status_code", Json.num response.status),
         ("headers", Json.obj (headerMapEntries response.headers)),
         ("raw_body", Json.str response.body)] := by
    simp [setKey]
  have hBody : ∀ parsed, setKey [("status_code", Json.num response.status),
      ("headers", Json.obj (headerMapEntries response.headers)),
      ("raw_body", Json.str response.body)] "body" parsed
      = [("status_code", Json.num response.status),
         ("headers", Json.obj (headerMapEntries response.headers)),
         ("raw_body", Json.str response.body),
         ("body", parsed)] := by
    intro parsed
    simp [setKey]
  unfold convert_http_resp_to_opa_resp
  by_cases hJ : (fj || findHeader response.headers "content-type"
      == some "application/json") = true
  · rcases hp : jsonParse response.body with _ | parsed
    · refine ⟨[("status_code", Json.num response.status),
        ("headers", Json.obj (headerMapEntries response.headers)),
        ("raw_body", Json.str response.body)], by simp [hJ, hp, hRaw], ?_, ?_, ?_, ?_⟩ <;>
        simp [getVal, hJ, hp]
    · refine ⟨[("status_code", Json.num response.status),
        ("headers", Json.obj (headerMapEntries response.headers)),
        ("raw_body", Json.str response.body)] ++ [("body", parsed)],
        by simp [hJ, hp, hRaw, hBody], ?_, ?_, ?_, ?_⟩ <;>
        simp [getVal, hJ, hp]
  · replace hJ : (fj || findHeader response.headers "content-type"
        == some "application/json") = false := by
      simpa using hJ
    by_cases hY : (fy || findHeader response.headers "content-type"
        == some "application/yaml"
        || findHeader response.headers "content-type" == some "application/x-yaml") = true
    · rcases hp : yamlParse response.body with _ | parsed
      · refine ⟨[("status_code", Json.num response.status),
        ("headers", Json.obj (headerMapEntries response.headers)),
        ("raw_body", Json.str response.body)], by simp [hJ, hY, hp, hRaw], ?_, ?_, ?_, ?_⟩ <;>
          simp [getVal, hJ, hY, hp]
      · refine ⟨[("status_code", Json.num response.status),
        ("headers", Json.obj (headerMapEntries response.headers)),
        ("raw_body", Json.str response.body)] ++ [("body", parsed)],
          by simp [hJ, hY, hp, hRaw, hBody], ?_, ?_, ?_, ?_⟩ <;>
          simp [getVal, hJ, hY, hp]
    · replace hY : (fy || findHeader response.headers "content-type"
          == some "application/yaml"
          || findHeader response.headers "content-type" == some "application/x-yaml")
          = false := by
        simpa using hY
      refine ⟨[("status_code", Json.num response.status),
        ("headers", Json.obj (headerMapEntries response.headers)),
        ("raw_body", Json.str response.body)], by simp [hJ, hY, hRaw], ?_, ?_, ?_, ?_⟩ <;>
        simp [getVal, hJ, hY]

/-- Counterexample to C5 as stated: with `force_json_decode = true`, content
type "application/yaml", and a raw body that parses as YAML but not as JSON
(the parsers are instantiated accordingly, as for the body "key: value"),
the claim demands a `body` field (the content type indicates YAML and the
body parses in that format), but the conversion takes the JSON branch, the
parse fails, and the result has no `body` field. -/
theorem http_resp_body_priority_counterexample :
    convert_http_resp_to_opa_resp (fun _ => none)
        (fun _ => some (Json.obj [("key", Json.str "value")]))
        ⟨200, [("content-type", "application/yaml")], "key: value"⟩ true false
      = Json.obj [("status_code", Json.num 200),
          ("headers", Json.obj [("content-type", Json.str "application/yaml")]),
          ("raw_body", Json.str "key: value")] ∧
    getVal [("status_code", Json.num 200),
        ("headers", Json.obj [("content-type", Json.str "application/yaml")]),
        ("raw_body", Json.str "key: value")] "body" = none ∧
    (fun _ => some (Json.obj [("key", Json.str "value")]) : String → Option Json)
        "key: value" = some (Json.obj [("key", Json.str "value")]) ∧
    findHeader [("content-type", "application/yaml")] "content-type"
      = some "application/yaml" := by
  refine ⟨?_, ?_, rfl, rfl⟩
  · simp [convert_http_resp_to_opa_resp, headerMapEntries, setKey, findHeader]
  · simp [getVal]

/-! ## `http.send` retry loop (src/builtins/impls/http.rs)

The loop in `internal_send` is
`for attempt in 0..=max_retry_attempts ⦃ send; if ok ⦃ break ⦄; if
max_retry_attempts > 0 ⦃ sleep(500 * 2_u64.pow(attempt as u32) ms) ⦄ ⦄`.
Transport attempts and sleeps are recorded as events; the transport is
assumed to fail on every attempt (the scenario of the claim).  The backoff
product is a `u64` multiplication of `500` with `2_u64.pow(attempt as u32)`:
the exponent is truncated to `u32` by the cast and the power and product wrap
modulo `2^64` (Rust release-profile overflow semantics). -/

/-- Observable events of the retry loop. -/
inductive HttpEvent where
  | attempt : HttpEvent
  | sleepMs (ms : Nat) : HttpEvent
deriving DecidableEq

/-- The backoff delay `500 * 2_u64.pow(attempt as u32)` in milliseconds,
with `u32` truncation of the exponent and `u64` wrapping of the power and the
product. -/
def backoffMs (attempt : Nat) : Nat :=
  500 * (2 ^ (attempt % 2 ^ 32) % 2 ^ 64) % 2 ^ 64

/-- Unrolling of the retry loop with `remaining` iterations left, every
transport attempt failing. -/
def retryGo (k attempt remaining : Nat) : List HttpEvent :=
  match remaining with
  | 0 => []
  | r + 1 =>
      HttpEvent.attempt ::
        ((if 0 < k then [HttpEvent.sleepMs (backoffMs attempt)] else []) ++
          retryGo k (attempt + 1) r)

/-- Events and outcome of `internal_send` with `max_retry_attempts = k`
against a transport failing every attempt with `err`: the loop runs all
`k + 1` iterations and `http_resp_res?` surfaces the last error. -/
def internal_send_failing (err : String) (k : Nat) :
    List HttpEvent × Except String Json :=
  (retryGo k 0 (k + 1), Except.error err)

theorem retryGo_count (k : Nat) :
    ∀ r a, (retryGo k a r).count HttpEvent.attempt = r := by
  intro r
  induction r with
  | zero => intro a; simp [retryGo]
  | succ r ih =>
      intro a
      by_cases hk : 0 < k <;>
        simp [retryGo, hk, List.count_cons, List.count_append, ih]

theorem retryGo_closed (k : Nat) :
    ∀ r a, retryGo k a r
      = (List.range' a r).flatMap fun i =>
          HttpEvent.attempt ::
            (if 0 < k then [HttpEvent.sleepMs (backoffMs i)] else []) := by
  intro r
  induction r with
  | zero => intro a; simp [retryGo]
  | succ r ih =>
      intro a
      rw [List.range'_succ]
      simp [retryGo, ih]

/-- C4, statement as amended.  With `max_retry_attempts = k` against a
permanently failing transport, exactly `k + 1` transport attempts are made;
when `k > 0` each attempt `i` (0-based) is followed by a sleep of
`500 · 2^i mod 2^64` milliseconds — equal to the claimed `500 · 2^i`
whenever that product fits in a `u64` (so for every attempt up to 55) — and
the final transport error is surfaced. -/
theorem http_retry_amended (err : String) (k : Nat) :
    (internal_send_failing err k).1.count HttpEvent.attempt = k + 1 ∧
    (internal_send_failing err k).1
      = ((List.range' 0 (k + 1)).flatMap fun i =>
          HttpEvent.attempt ::
            (if 0 < k then [HttpEvent.sleepMs (backoffMs i)] else [])) ∧
    (∀ i, 500 * 2 ^ i < 2 ^ 64 → i < 2 ^ 32 → backoffMs i = 500 * 2 ^ i) ∧
    (internal_send_failing err k).2 = Except.error err := by
  refine ⟨retryGo_count k (k + 1) 0, retryGo_closed k (k + 1) 0, ?_, rfl⟩
  intro i hfit hexp
  unfold backoffMs
  have h1 : i % 2 ^ 32 = i := Nat.mod_eq_of_lt hexp
  have h2 : 2 ^ i < 2 ^ 64 := by
    have : 2 ^ i ≤ 500 * 2 ^ i := Nat.le_mul_of_pos_left _ (by norm_num)
    omega
  rw [h1, Nat.mod_eq_of_lt h2, Nat.mod_eq_of_lt hfit]

/-- Witness for C4 (amended) at `k = 2`: three attempts, and the backoff
after attempt 1 is exactly 1000 ms (no overflow). -/
theorem http_retry_amended_witness :
    (internal_send_failing "connection refused" 2).1.count HttpEvent.attempt = 3 ∧
    500 * 2 ^ 1 < 2 ^ 64 ∧ 1 < 2 ^ 32 ∧ backoffMs 1 = 500 * 2 ^ 1 := by
  refine ⟨by simpa using (http_retry_amended "connection refused" 2).1,
    by norm_num, by norm_num, ?_⟩
  exact (http_retry_amended "connection refused" 2).2.2.1 1 (by norm_num) (by norm_num)

/-- Counterexample to C4 as stated: at `max_retry_attempts = 57` the backoff
computed after attempt 56 overflows `u64`: the loop sleeps
17582052945254416384 ms (= 500·2^56 mod 2^64), and no event of the claimed
500·2^56 = 36028797018963968000 ms occurs anywhere in the run. -/
theorem http_retry_overflow_counterexample :
    backoffMs 56 = 17582052945254416384 ∧
    500 * 2 ^ 56 = 36028797018963968000 ∧
    (17582052945254416384 : Nat) ≠ 36028797018963968000 ∧
    (internal_send_failing "connection refused" 57).1.count
      (HttpEvent.sleepMs 36028797018963968000) = 0 ∧
    (internal_send_failing "connection refused" 57).1.count
      (HttpEvent.sleepMs 17582052945254416384) = 1 := by
  refine ⟨by decide, by decide, by decide, ?_, ?_⟩ <;> decide

/-! ## `json.patch` (src/builtins/impls/json.rs)

The source wraps `json_patch::patch` (external crate), which implements RFC
6902 atomically: if any operation fails the document is left untouched and an
error is returned.  The crate is modelled below: JSON Pointers per RFC 6901
(`~0`/`~1` unescaping, array indices without leading zeros, `-` meaning
append for `add`), and the six operations `add`, `remove`, `replace`, `move`,
`copy`, `test`.  In the pure embedding, atomic failure is an application
returning `none`. -/

mutual

/-- Structural equality of JSON values (serde's `PartialEq` for `Value`):
objects compare as maps, arrays element-wise. -/
def jsonEq : Json → Json → Bool
  | Json.null, Json.null => true
  | Json.bool a, Json.bool b => a == b
  | Json.num a, Json.num b => a == b
  | Json.str a, Json.str b => a == b
  | Json.arr a, Json.arr b => jsonListEq a b
  | Json.obj a, Json.obj b => a.length == b.length && jsonObjSub a b
  | _, _ => false
termination_by a _ => sizeOf a

/-- Element-wise equality of JSON arrays. -/
def jsonListEq : List Json → List Json → Bool
  | [], [] => true
  | x :: xs, y :: ys => jsonEq x y && jsonListEq xs ys
  | _, _ => false
termination_by l _ => sizeOf l

/-- One-sided map inclusion: every entry of the first object is present in
the second with an equal value. -/
def jsonObjSub : List (String × Json) → List (String × Json) → Bool
  | [], _ => true
  | (k, v) :: rest, b =>
      (match getVal b k with
        | some w => jsonEq v w
        | none => false) && jsonObjSub rest b
termination_by l _ => sizeOf l

end

/-- RFC 6901 token unescaping: `~1` is `/` and `~0` is `~`. -/
def unescapeToken : List Char → List Char
  | [] => []
  | '~' :: '0' :: rest => '~' :: unescapeToken rest
  | '~' :: '1' :: rest => '/' :: unescapeToken rest
  | c :: rest => c :: unescapeToken rest

/-- Splitting of the pointer body at every `/`. -/
def splitSlash : List Char → List (List Char)
  | [] => [[]]
  | '/' :: rest => [] :: splitSlash rest
  | c :: rest =>
      match splitSlash rest with
      | t :: ts => (c :: t) :: ts
      | [] => [[c]]

/-- RFC 6901 pointer parsing: the empty string is the root; otherwise the
pointer must start with `/` and its tokens are unescaped. -/
def parsePointer (s : String) : Option (List String) :=
  match s.data with
  | [] => some []
  | '/' :: rest => some ((splitSlash rest).map fun t => String.mk (unescapeToken t))
  | _ => none

/-- Numeric value of a digit string. -/
def digitsToNat (l : List Char) : Nat :=
  l.foldl (fun acc c => acc * 10 + (c.toNat - 48)) 0

/-- RFC 6901 array index: decimal digits with no leading zero. -/
def parseIndex (t : String) : Option Nat :=
  match t.data with
  | [] => none
  | c :: cs =>
      if (c :: cs).all Char.isDigit then
        if c = '0' ∧ cs ≠ [] then none
        else some (digitsToNat (c :: cs))
      else none

/-- Removal of an object member (the key is known to be present). -/
def removeKey : List (String × Json) → String → List (String × Json)
  | [], _ => []
  | (k', v') :: rest, k => if k' = k then rest else (k', v') :: removeKey rest k

/-- Insertion into an array before the given position. -/
def insertAt : List Json → Nat → Json → List Json
  | l, 0, v => v :: l
  | [], _ + 1, v => [v]
  | x :: xs, n + 1, v => x :: insertAt xs n v

/-- Resolution of a pointer to the value it designates, when it exists. -/
def getAt : Json → List String → Option Json
  | v, [] => some v
  | Json.obj kvs, t :: rest =>
      match getVal kvs t with
      | some v => getAt v rest
      | none => none
  | Json.arr xs, t :: rest =>
      match parseIndex t with
      | some i =>
          match xs.get? i with
          | some v => getAt v rest
          | none => none
      | none => none
  | _, _ :: _ => none

/-- RFC 6902 `add`: replace the root, add or replace an object member, or
insert into an array at an index up to its length (`-` appends). -/
def addAt : Json → List String → Json → Option Json
  | _, [], v => some v
  | Json.obj kvs, [t], v => some (Json.obj (setKey kvs t v))
  | Json.arr xs, [t], v =>
      if t = "-" then some (Json.arr (xs ++ [v]))
      else
        match parseIndex t with
        | some i => if i ≤ xs.length then some (Json.arr (insertAt xs i v)) else none
        | none => none
  | Json.obj kvs, t :: rest, v =>
      match getVal kvs t with
      | some child =>
          match addAt child rest v with
          | some c => some (Json.obj (setKey kvs t c))
          | none => none
      | none => none
  | Json.arr xs, t :: rest, v =>
      match parseIndex t with
      | some i =>
          match xs.get? i with
          | some child =>
              match addAt child rest v with
              | some c => some (Json.arr (xs.set i c))
              | none => none
          | none => none
      | none => none
  | _, _ :: _, _ => none

/-- RFC 6902 `remove`: the target location must exist (and the root has no
parent to remove from). -/
def removeAt : Json → List String → Option Json
  | _, [] => none
  | Json.obj kvs, [t] =>
      match getVal kvs t with
      | some _ => some (Json.obj (removeKey kvs t))
      | none => none
  | Json.arr xs, [t] =>
      match parseIndex t with
      | some i => if i < xs.length then some (Json.arr (xs.eraseIdx i)) else none
      | none => none
  | Json.obj kvs, t :: rest =>
      match getVal kvs t with
      | some child =>
          match removeAt child rest with
          | some c => some (Json.obj (setKey kvs t c))
          | none => none
      | none => none
  | Json.arr xs, t :: rest =>
      match parseIndex t with
      | some i =>
          match xs.get? i with
          | some child =>
              match removeAt child rest with
              | some c => some (Json.arr (xs.set i c))
              | none => none
          | none => none
      | none => none
  | _, _ :: _ => none

/-- RFC 6902 `replace`: the target location must exist and receives the new
value (the root may be replaced). -/
def replaceAt : Json → List String → Json → Option Json
  | _, [], v => some v
  | Json.obj kvs, [t], v =>
      match getVal kvs t with
      | some _ => some (Json.obj (setKey kvs t v))
      | none => none
  | Json.arr xs, [t], v =>
      match parseIndex t with
      | some i => if i < xs.length then some (Json.arr (xs.set i v)) else none
      | none => none
  | Json.obj kvs, t :: rest, v =>
      match getVal kvs t with
      | some child =>
          match replaceAt child rest v with
          | some c => some (Json.obj (setKey kvs t c))
          | none => none
      | none => none
  | Json.arr xs, t :: rest, v =>
      match parseIndex t with
      | some i =>
          match xs.get? i with
          | some child =>
              match replaceAt child rest v with
              | some c => some (Json.arr (xs.set i c))
              | none => none
          | none => none
      | none => none
  | _, _ :: _, _ => none

/-- Test for one token list being a strict initial segment of another
(`move` may not relocate a value into its own child). -/
def strictInitialSegment (a b : List String) : Bool :=
  decide (a.length < b.length) && (b.take a.length == a)

/-- RFC 6902 patch operations as deserialised by the `json_patch` crate. -/
inductive PatchOp where
  | add (path : String) (value : Json) : PatchOp
  | remove (path : String) : PatchOp
  | replace (path : String) (value : Json) : PatchOp
  | move (fromPath path : String) : PatchOp
  | copy (fromPath path : String) : PatchOp
  | test (path : String) (value : Json) : PatchOp

/-- Application of a single RFC 6902 operation. -/
def applyOp (doc : Json) : PatchOp → Option Json
  | PatchOp.add path value =>
      (parsePointer path).bind fun ts => addAt doc ts value
  | PatchOp.remove path =>
      (parsePointer path).bind fun ts => removeAt doc ts
  | PatchOp.replace path value =>
      (parsePointer path).bind fun ts => replaceAt doc ts value
  | PatchOp.move fromPath path =>
      (parsePointer fromPath).bind fun fts =>
        (parsePointer path).bind fun ts =>
          if strictInitialSegment fts ts then none
          else
            (getAt doc fts).bind fun v =>
              (removeAt doc fts).bind fun doc' => addAt doc' ts v
  | PatchOp.copy fromPath path =>
      (parsePointer fromPath).bind fun fts =>
        (parsePointer path).bind fun ts =>
          (getAt doc fts).bind fun v => addAt doc ts v
  | PatchOp.test path value =>
      (parsePointer path).bind fun ts =>
        (getAt doc ts).bind fun v => if jsonEq v value then some doc else none

/-- Model of `json_patch::patch` (external crate): the operations are applied
in order, and the application is atomic — any failure yields `none` with no
partially patched document observable. -/
def applyPatch (doc : Json) : List PatchOp → Option Json
  | [] => some doc
  | op :: rest => (applyOp doc op).bind fun doc' => applyPatch doc' rest

/-- Embedding of `patch` from src/builtins/impls/json.rs: when
`json_patch::patch` fails, the source discards the (atomically restored)
input and returns a fresh empty object; otherwise the patched document is
returned. -/
def patch (object : Json) (p : List PatchOp) : Json :=
  match applyPatch object p with
  | none => Json.obj []
  | some v => v

/-- Counterexample to C1 as stated: removing the nonexistent member `/x` from
⦃"a": 1⦄ makes the patch fail, and `json.patch` returns the empty object,
not the original input object. -/
theorem json_patch_failure_not_original :
    patch (Json.obj [("a", Json.num 1)]) [PatchOp.remove "/x"] = Json.obj [] ∧
    Json.obj ([] : List (String × Json)) ≠ Json.obj [("a", Json.num 1)] := by
  constructor
  · rfl
  · intro h
    have := congrArg (fun j => match j with
      | Json.obj l => l.length
      | _ => 0) h
    simp at this

/-- C1, statement as amended.  `json.patch` applies an RFC 6902 patch
atomically, but on failure it returns the empty object ⦃⦄ rather than the
original input: when every operation applies, the fully patched document is
returned; when any operation fails, the result is the empty object. -/
theorem json_patch_amended_atomic (object : Json) (ops : List PatchOp) :
    (applyPatch object ops = none → patch object ops = Json.obj []) ∧
    (∀ v, applyPatch object ops = some v → patch object ops = v) := by
  constructor
  · intro h
    unfold patch
    rw [h]
  · intro v h
    unfold patch
    rw [h]

/-- Witness for C1 (amended): the successful patch from the source's doc
comment (`json.patch(⦃"a": ⦃"foo": 1⦄⦄, [add "/a/bar" 2])`) returns the fully
patched object, and the failing `remove "/x"` patch returns ⦃⦄. -/
theorem json_patch_amended_atomic_witness :
    applyPatch (Json.obj [("a", Json.obj [("foo", Json.num 1)])])
        [PatchOp.add "/a/bar" (Json.num 2)]
      = some (Json.obj [("a", Json.obj [("foo", Json.num 1), ("bar", Json.num 2)])]) ∧
    patch (Json.obj [("a", Json.obj [("foo", Json.num 1)])])
        [PatchOp.add "/a/bar" (Json.num 2)]
      = Json.obj [("a", Json.obj [("foo", Json.num 1), ("bar", Json.num 2)])] ∧
    applyPatch (Json.obj [("a", Json.num 1)]) [PatchOp.remove "/x"] = none ∧
    patch (Json.obj [("a", Json.num 1)]) [PatchOp.remove "/x"] = Json.obj [] := by
  have h1 : applyPatch (Json.obj [("a", Json.obj [("foo", Json.num 1)])])
      [PatchOp.add "/a/bar" (Json.num 2)]
      = some (Json.obj [("a", Json.obj [("foo", Json.num 1), ("bar", Json.num 2)])]) := by
    rfl
  have h2 : applyPatch (Json.obj [("a", Json.num 1)]) [PatchOp.remove "/x"] = none := by
    rfl
  exact ⟨h1, (json_patch_amended_atomic _ _).2 _ h1, h2,
    (json_patch_amended_atomic _ _).1 h2⟩

end OpaWasm
